import Mathlib

/-!
Shallow embedding of the statistical testing engine of the `Wzy_Analysis`
repository (`notebooks/helpers.py`, class `StatHelper`): FDR correction of
p-value lists with missing markers, pairwise categorical testing
(Fisher-exact based) in one-vs-one and one-vs-rest modes, and numerical
distribution testing (Kruskal–Wallis gate followed by Mann–Whitney U).

Conventions of the embedding:
* p-values are exact rationals; a cell of a p-value column is `Option ℚ`,
  with `none` modelling the IEEE NaN missing marker (`np.nan`).
* The opaque numerical kernels of scipy that only produce p-values
  (`fisher_exact`, the Kruskal–Wallis and Mann–Whitney p-value
  computations) are taken as function parameters: no claim under study
  depends on their values, only on how the engine routes them.
* `scipy.stats.false_discovery_control` (default Benjamini–Hochberg
  method) is modelled exactly: sort ascending, scale position `k`
  (0-based) by `m / (k+1)`, running minima from the right, undo the sort,
  clip into `[0,1]`.  The sort is modelled by the stable
  `List.insertionSort`; Benjamini–Hochberg adjusted values are invariant
  under the ordering of tied p-values, so the model does not depend on the
  tie-breaking of `np.argsort`.
* pandas `Series.unique()` is first-occurrence-order deduplication, and
  the pre-sort row labels (the `RangeIndex` of the freshly built result
  frame) travel with the rows through `sort_values`.
* `DataFrame.sort_values` on the adjusted p-value column is abstracted as
  a function parameter constrained by `SortsByPAdj`: an ascending
  reordering of the rows with missing keys last.  Pandas' default sort
  kind is `quicksort`, which is not stable, so no assumption is made
  about the relative order of rows with equal adjusted p-values.
-/

namespace WzyAnalysis

/-- A p-value cell: `none` models the IEEE NaN missing marker. -/
abbrev PCell := Option ℚ

/-- Clip a rational into `[0, 1]`, modelling the final `np.clip(ps, 0, 1)` of
`scipy.stats.false_discovery_control`. -/
def clip01 (q : ℚ) : ℚ := max 0 (min 1 q)

/-- Running minima from the right over the second components, modelling
`np.minimum.accumulate` applied to the reversed array of scaled p-values;
the first component (the pre-sort position of the value) travels along. -/
def suffixMins : List (ℕ × ℚ) → List (ℕ × ℚ)
  | [] => []
  | (t, p) :: rest =>
    match suffixMins rest with
    | [] => [(t, p)]
    | (t2, q) :: r2 => (t, min p q) :: (t2, q) :: r2

/-- Comparison used to sort (position, p-value) pairs by p-value. -/
def sndLe (a b : ℕ × ℚ) : Prop := a.2 ≤ b.2

instance : DecidableRel sndLe := fun a b => inferInstanceAs (Decidable (a.2 ≤ b.2))

instance : IsTotal (ℕ × ℚ) sndLe := ⟨fun a b => le_total a.2 b.2⟩

instance : IsTrans (ℕ × ℚ) sndLe := ⟨fun _ _ _ h h2 => le_trans h h2⟩

/-- Benjamini–Hochberg FDR adjustment of a list of p-values, modelling
`scipy.stats.false_discovery_control(ps)` with the default BH method:
stably sort the values (tagged with their positions) ascending, multiply the
value at sorted position `k` (0-based) by `m / (k+1)`, take running minima
from the right, scatter back to the original positions, clip into `[0,1]`. -/
def false_discovery_control (ps : List ℚ) : List ℚ :=
  let m := ps.length
  let sorted := (ps.enum).insertionSort sndLe
  let scaled := (sorted.enum).map
    (fun ke => (ke.2.1, ke.2.2 * (m : ℚ) / ((ke.1 : ℚ) + 1)))
  let acc := suffixMins scaled
  (List.range m).map (fun t => clip01 ((acc.lookup t).getD 0))

/-- Indices of the valid (non-NaN) positions of a p-value list, in increasing
order: this models `np.where(~np.isnan(p_values))[0]`. -/
def validIdx (ps : List PCell) : List ℕ :=
  (List.range ps.length).filter (fun i => (ps.getD i none).isSome)

/-- NaN-tolerant FDR correction, modelling `StatHelper._get_fdr`: strip the
NaN cells, BH-correct the valid subsequence, and scatter the corrected values
back to their original positions via the index map, leaving NaN elsewhere. -/
def get_fdr (p_values : List PCell) : List PCell :=
  let p_clean := p_values.filterMap id
  if p_clean.isEmpty then p_values
  else
    let corrected := false_discovery_control p_clean
    let result_map := (validIdx p_values).zip corrected
    (List.range p_values.length).map (fun i => result_map.lookup i)

/-- Number of valid (non-NaN) cells strictly before position `i`: the rank of
position `i` inside the valid subsequence. -/
def countValidBefore (ps : List PCell) (i : ℕ) : ℕ :=
  ((ps.take i).filterMap id).length

theorem false_discovery_control_length (ps : List ℚ) :
    (false_discovery_control ps).length = ps.length := by
  simp [false_discovery_control]

theorem validIdx_nil : validIdx [] = [] := rfl

theorem validIdx_cons (x : PCell) (ps : List PCell) :
    validIdx (x :: ps) =
      (if x.isSome then [0] else []) ++ (validIdx ps).map (· + 1) := by
  unfold validIdx
  rw [List.length_cons, List.range_succ_eq_map, List.filter_cons,
    List.filter_map]
  have hpred : ((fun i => ((x :: ps).getD i none).isSome) ∘ Nat.succ) =
      (fun i => (ps.getD i none).isSome) := by
    funext i
    simp [List.getD_cons_succ]
  rw [hpred]
  cases x <;> simp [List.getD_cons_zero, Nat.succ_eq_add_one]

theorem validIdx_length (ps : List PCell) :
    (validIdx ps).length = (ps.filterMap id).length := by
  induction ps with
  | nil => rfl
  | cons x ps ih =>
    rw [validIdx_cons]
    cases x <;> simp [ih]

theorem countValidBefore_zero (ps : List PCell) : countValidBefore ps 0 = 0 := by
  simp [countValidBefore]

theorem countValidBefore_cons_succ (x : PCell) (ps : List PCell) (i : ℕ) :
    countValidBefore (x :: ps) (i + 1) =
      (if x.isSome then 1 else 0) + countValidBefore ps i := by
  cases x <;> simp [countValidBefore, Nat.add_comm]

theorem lookup_zip_map_succ (l : List ℕ) (c : List ℚ) (j : ℕ) :
    ((l.map (· + 1)).zip c).lookup (j + 1) = (l.zip c).lookup j := by
  induction l generalizing c with
  | nil => rfl
  | cons a l ih =>
    cases c with
    | nil => rfl
    | cons q c =>
      rw [List.map_cons, List.zip_cons_cons, List.zip_cons_cons,
        List.lookup_cons, List.lookup_cons]
      by_cases h : j = a
      · subst h
        simp
      · have h1 : ((j + 1 == a + 1) = false) := by
          simp [h]
        have h2 : ((j == a) = false) := by
          simp [h]
        rw [h1, h2]
        exact ih c

theorem lookup_zip_of_not_mem (l : List ℕ) (c : List ℚ) (i : ℕ)
    (h : i ∉ l) : ((l.zip c).lookup i) = none := by
  induction l generalizing c with
  | nil => rfl
  | cons a l ih =>
    cases c with
    | nil => rfl
    | cons q c =>
      have h1 : ((i == a) = false) := by
        simp only [List.mem_cons, not_or] at h
        simp [h.1]
      simp only [List.zip_cons_cons, List.lookup, h1]
      exact ih c (fun hm => h (List.mem_cons_of_mem _ hm))

theorem mem_validIdx (ps : List PCell) (i : ℕ) :
    i ∈ validIdx ps ↔ i < ps.length ∧ (ps.getD i none).isSome := by
  simp [validIdx, List.mem_filter, List.mem_range]

/-- Core alignment property of the index map built inside `get_fdr`: looking
up a valid position `i` in the zipped map returns the corrected value at the
rank of `i` among the valid positions. -/
theorem lookup_validIdx_zip (ps : List PCell) (c : List ℚ) (i : ℕ)
    (hvalid : (ps.getD i none).isSome)
    (hlen : (validIdx ps).length ≤ c.length) :
    (((validIdx ps).zip c).lookup i) = c.get? (countValidBefore ps i) := by
  induction ps generalizing c i with
  | nil =>
    exfalso
    simp [List.getD] at hvalid
  | cons x ps ih =>
    rw [validIdx_cons] at hlen ⊢
    cases x with
    | some v =>
      rw [show ((if (some v : PCell).isSome then [0] else []) = [0]) from rfl,
        List.singleton_append] at hlen ⊢
      cases c with
      | nil =>
        exfalso
        simp at hlen
      | cons q c =>
        rw [List.zip_cons_cons, List.lookup_cons]
        cases i with
        | zero =>
          simp [countValidBefore_zero]
        | succ j =>
          have hK : ((j + 1 == (0 : ℕ)) = false) := by
            simp
          rw [hK]
          show (((validIdx ps).map (· + 1)).zip c).lookup (j + 1) = _
          rw [lookup_zip_map_succ]
          have hv : (ps.getD j none).isSome := by
            simpa [List.getD_cons_succ] using hvalid
          have hl : (validIdx ps).length ≤ c.length := by
            simpa using hlen
          rw [ih c j hv hl, countValidBefore_cons_succ]
          show c.get? (countValidBefore ps j) =
            (q :: c).get? (1 + countValidBefore ps j)
          rw [Nat.add_comm]
          rfl
    | none =>
      rw [show ((if (none : PCell).isSome then [0] else []) = []) from rfl,
        List.nil_append] at hlen ⊢
      cases i with
      | zero =>
        exfalso
        simp [List.getD_cons_zero] at hvalid
      | succ j =>
        rw [lookup_zip_map_succ]
        have hv : (ps.getD j none).isSome := by
          simpa [List.getD_cons_succ] using hvalid
        have hl : (validIdx ps).length ≤ c.length := by
          simpa using hlen
        rw [ih c j hv hl, countValidBefore_cons_succ]
        show c.get? (countValidBefore ps j) = c.get? (0 + countValidBefore ps j)
        rw [Nat.zero_add]

theorem get_fdr_length (ps : List PCell) : (get_fdr ps).length = ps.length := by
  unfold get_fdr
  by_cases h : (ps.filterMap id).isEmpty <;> simp [h]

/-- A NaN cell of the input stays NaN in the output of `get_fdr` (stated via
`getD`, so it also covers out-of-range positions, where both sides read the
default `none`). -/
theorem get_fdr_nan (ps : List PCell) (i : ℕ)
    (h : ps.getD i none = none) : (get_fdr ps).getD i none = none := by
  unfold get_fdr
  by_cases hc : (ps.filterMap id).isEmpty
  · simp only [hc, if_true]
    exact h
  · rw [if_neg hc]
    by_cases hi : i < ps.length
    · rw [List.getD_eq_getElem?_getD, List.getElem?_map,
        List.getElem?_range hi]
      simp only [Option.map_some']
      rw [lookup_zip_of_not_mem]
      · rfl
      · intro hmem
        rw [mem_validIdx] at hmem
        rw [h] at hmem
        simp at hmem
    · rw [List.getD_eq_getElem?_getD, List.getElem?_eq_none]
      · rfl
      · simpa using Nat.le_of_not_lt hi

theorem getD_eq_some_imp_lt {ps : List PCell} {i : ℕ} {v : ℚ}
    (h : ps.getD i none = some v) : i < ps.length := by
  by_contra hge
  rw [List.getD_eq_getElem?_getD, List.getElem?_eq_none
    (by simpa using Nat.le_of_not_lt hge)] at h
  simp at h

/-- A valid cell of the input is sent by `get_fdr` to the BH-corrected value
at its rank among the valid cells, the valid subsequence being taken in its
original relative order. -/
theorem get_fdr_valid (ps : List PCell) (i : ℕ) (v : ℚ)
    (h : ps.getD i none = some v) :
    (get_fdr ps).getD i none =
      (false_discovery_control (ps.filterMap id)).get?
        (countValidBefore ps i) := by
  have hi : i < ps.length := getD_eq_some_imp_lt h
  have hmem : v ∈ ps.filterMap id := by
    rw [List.mem_filterMap]
    refine ⟨some v, ?_, rfl⟩
    rw [List.getD_eq_getElem?_getD] at h
    cases hg : ps[i]? with
    | none => rw [hg] at h; simp at h
    | some c =>
      rw [hg] at h
      simp only [Option.getD_some] at h
      subst h
      exact List.getElem?_mem hg
  have hne : ¬ (ps.filterMap id).isEmpty := by
    cases hfm : ps.filterMap id with
    | nil => rw [hfm] at hmem; simp at hmem
    | cons a l => simp [hfm]
  unfold get_fdr
  rw [if_neg hne]
  rw [List.getD_eq_getElem?_getD, List.getElem?_map, List.getElem?_range hi]
  simp only [Option.map_some', Option.getD_some]
  exact lookup_validIdx_zip ps _ i (by rw [h]; rfl)
    (le_of_eq (by rw [validIdx_length, false_discovery_control_length]))

theorem countValidBefore_lt (ps : List PCell) (i : ℕ) (v : ℚ)
    (h : ps.getD i none = some v) :
    countValidBefore ps i < (ps.filterMap id).length := by
  induction ps generalizing i with
  | nil => simp [List.getD] at h
  | cons x ps ih =>
    cases i with
    | zero =>
      rw [List.getD_cons_zero] at h
      subst h
      rw [countValidBefore_zero]
      simp
    | succ j =>
      rw [List.getD_cons_succ] at h
      rw [countValidBefore_cons_succ]
      cases x with
      | none => simpa using ih j h
      | some w =>
        simpa [Nat.add_comm] using Nat.add_lt_add_right (ih j h) 1

/-- The BH correction of a single in-range p-value is that p-value itself. -/
theorem false_discovery_control_singleton (p : ℚ) (h0 : 0 ≤ p) (h1 : p ≤ 1) :
    false_discovery_control [p] = [p] := by
  unfold false_discovery_control
  simp only [List.length_cons, List.length_nil, List.enum, clip01]
  norm_num [List.insertionSort, List.orderedInsert, suffixMins, List.range_succ,
    List.lookup]
  rw [min_eq_right h1, max_eq_right h0]

/-- C1.  `StatHelper._get_fdr` preserves length and index correspondence: a
NaN cell stays NaN, and a valid cell at position `i` receives the BH-adjusted
value at the rank of `i` inside the valid subsequence, the valid subsequence
being the non-NaN values in their original relative order. -/
theorem C1_fdr_index_alignment (ps : List PCell) :
    (get_fdr ps).length = ps.length ∧
    (∀ i, ps.getD i none = none → (get_fdr ps).getD i none = none) ∧
    (∀ i v, ps.getD i none = some v →
      (get_fdr ps).getD i none =
        (false_discovery_control (ps.filterMap id)).get?
          (countValidBefore ps i)) :=
  ⟨get_fdr_length ps, fun i h => get_fdr_nan ps i h,
    fun i v h => get_fdr_valid ps i v h⟩

theorem C1_fdr_index_alignment_witness :
    (get_fdr [some (1/2), none, some (1/3)]).getD 2 none =
      (false_discovery_control [1/2, 1/3]).get? 1 ∧
    (get_fdr [some (1/2), none, some (1/3)]).getD 1 none = none :=
  ⟨(C1_fdr_index_alignment [some (1/2), none, some (1/3)]).2.2 2 (1/3) rfl,
    (C1_fdr_index_alignment [some (1/2), none, some (1/3)]).2.1 1 rfl⟩

/-- C7.  An all-NaN input is returned unchanged by `StatHelper._get_fdr`:
the degenerate zero-element correction is never attempted. -/
theorem C7_fdr_all_nan_unchanged (ps : List PCell)
    (h : ∀ x ∈ ps, x = none) : get_fdr ps = ps := by
  unfold get_fdr
  rw [if_pos]
  rw [List.isEmpty_eq_true, List.filterMap_eq_nil_iff]
  exact h

theorem C7_fdr_all_nan_unchanged_witness :
    get_fdr [none, none, none] = [none, none, none] :=
  C7_fdr_all_nan_unchanged [none, none, none] (by simp)

/-- C8.  When the input to `StatHelper._get_fdr` contains exactly one valid
p-value, the adjusted value at that position equals the raw p-value. -/
theorem C8_fdr_single_pvalue_identity (ps : List PCell) (p : ℚ) (i : ℕ)
    (hclean : ps.filterMap id = [p]) (h0 : 0 ≤ p) (h1 : p ≤ 1)
    (hi : ps.getD i none = some p) :
    (get_fdr ps).getD i none = some p := by
  rw [get_fdr_valid ps i p hi, hclean]
  have hcvb : countValidBefore ps i = 0 := by
    have hlt := countValidBefore_lt ps i p hi
    rw [hclean] at hlt
    simpa using hlt
  rw [hcvb, false_discovery_control_singleton p h0 h1]
  rfl

theorem C8_fdr_single_pvalue_identity_witness :
    (get_fdr [none, some (1/2)]).getD 1 none = some (1/2) :=
  C8_fdr_single_pvalue_identity [none, some (1/2)] (1/2) 1 rfl
    (by norm_num) (by norm_num) rfl

/-! ### Pairwise categorical testing (`StatHelper.run_pairwise_categorical`) -/

/-- Recursion worker for `uniqueFirst`, carrying the values already seen. -/
def uniqueAux [DecidableEq α] : List α → List α → List α
  | [], _ => []
  | a :: l, seen =>
    if a ∈ seen then uniqueAux l seen else a :: uniqueAux l (a :: seen)

/-- First-occurrence-order deduplication, modelling pandas
`Series.unique()`. -/
def uniqueFirst [DecidableEq α] (l : List α) : List α := uniqueAux l []

/-- All unordered pairs of distinct positions of `l`, in the enumeration
order of `itertools.combinations(l, 2)`. -/
def combos2 : List α → List (α × α)
  | [] => []
  | g :: gs => gs.map (fun h => (g, h)) ++ combos2 gs

/-- Descending-count comparison on (value, count) pairs, used to model the
count-descending order of pandas `value_counts()`. -/
def cntGe {β : Type} (a b : β × ℕ) : Prop := b.2 ≤ a.2

instance {β : Type} : DecidableRel (@cntGe β) := fun a b =>
  inferInstanceAs (Decidable (b.2 ≤ a.2))

instance {β : Type} : IsTotal (β × ℕ) cntGe := ⟨fun a b => le_total b.2 a.2⟩

instance {β : Type} : IsTrans (β × ℕ) cntGe :=
  ⟨fun _ _ _ h h2 => le_trans h2 h⟩

/-- Global value counts of a column, sorted by count descending (stably),
modelling `df[feature_col].value_counts()`. -/
def value_counts {β : Type} [DecidableEq β] (col : List β) : List (β × ℕ) :=
  ((uniqueFirst col).map (fun v => (v, col.count v))).insertionSort cntGe

/-- The feature values whose global count strictly exceeds `min_obs`,
modelling `feature_counts[feature_counts > min_obs].index`. -/
def validFeatures {G F : Type} [DecidableEq G] [DecidableEq F]
    (df : List (G × F)) (min_obs : ℕ) : List F :=
  ((value_counts (df.map Prod.snd)).filter (fun vc => min_obs < vc.2)).map
    Prod.fst

/-- One result record of `run_pairwise_categorical` before FDR adjustment.
In one-vs-one mode `g2 = some _` names the second group of the comparison;
in one-vs-rest mode `g2 = none` and the second side is the rest of the
dataset.  `count1`/`count2` are the `Count_G1`/`Count_G2` (respectively
`In_Group_Count`/`Out_Group_Count`) columns. -/
structure CatRow (G F : Type) where
  g1 : G
  g2 : Option G
  feature : F
  count1 : ℕ
  count2 : ℕ
  pValue : ℚ
  deriving DecidableEq

/-- A row of the returned table: the pandas row label of the pre-sort
`RangeIndex` (preserved by `sort_values`), the record, and its adjusted
p-value. -/
structure CatRowOut (G F : Type) where
  idx : ℕ
  row : CatRow G F
  pAdj : PCell
  deriving DecidableEq

/-- Ascending comparison on p-value cells with NaN placed last, the key
order of `sort_values('P_adj')` (default `na_position='last'`). -/
def cellLe (a b : PCell) : Prop :=
  match b with
  | none => True
  | some y =>
    match a with
    | none => False
    | some x => x ≤ y

instance : DecidableRel cellLe := fun a b =>
  match b with
  | none => isTrue trivial
  | some y =>
    match a with
    | none => isFalse (fun h => h)
    | some x => inferInstanceAs (Decidable (x ≤ y))

theorem cellLe_refl (a : PCell) : cellLe a a := by
  cases a with
  | none => trivial
  | some x => exact le_refl x

theorem cellLe_total (a b : PCell) : cellLe a b ∨ cellLe b a := by
  cases a <;> cases b <;> first
    | exact Or.inl trivial
    | exact Or.inr trivial
    | exact le_total _ _

theorem cellLe_trans (a b c : PCell) (h1 : cellLe a b) (h2 : cellLe b c) :
    cellLe a c := by
  cases a <;> cases b <;> cases c <;>
    first
      | trivial
      | exact le_trans h1 h2

/-- Row comparison of the final `sort_values('P_adj')`: compare rows by
their adjusted p-value only. -/
def catRowLe {G F : Type} (a b : CatRowOut G F) : Prop := cellLe a.pAdj b.pAdj

instance {G F : Type} : DecidableRel (@catRowLe G F) := fun a b =>
  inferInstanceAs (Decidable (cellLe a.pAdj b.pAdj))

instance {G F : Type} : IsTotal (CatRowOut G F) catRowLe :=
  ⟨fun a b => cellLe_total a.pAdj b.pAdj⟩

instance {G F : Type} : IsTrans (CatRowOut G F) catRowLe :=
  ⟨fun a b c => cellLe_trans a.pAdj b.pAdj c.pAdj⟩

/-- The unadjusted result records of `run_pairwise_categorical` in
one-vs-one mode: for every unordered pair of distinct groups, restrict the
dataset to the two groups' rows and count the 2×2 contingency cells for
each retained feature; `fisher` abstracts the p-value of
`scipy.stats.fisher_exact` on the table `[[a, b], [c, d]]`. -/
def oneVsOneRows {G F : Type} [DecidableEq G] [DecidableEq F]
    (fisher : ℕ → ℕ → ℕ → ℕ → ℚ) (df : List (G × F))
    (groups : List G) (feats : List F) : List (CatRow G F) :=
  (combos2 groups).flatMap (fun pr =>
    let sub_df := df.filter (fun r => r.1 == pr.1 || r.1 == pr.2)
    feats.map (fun feat =>
      let a := (sub_df.filter (fun r => r.1 == pr.1 && r.2 == feat)).length
      let b := (sub_df.filter (fun r => r.1 == pr.1 && r.2 != feat)).length
      let c := (sub_df.filter (fun r => r.1 == pr.2 && r.2 == feat)).length
      let d := (sub_df.filter (fun r => r.1 == pr.2 && r.2 != feat)).length
      { g1 := pr.1, g2 := some pr.2, feature := feat, count1 := a,
        count2 := c, pValue := fisher a b c d }))

/-- The unadjusted result records of `run_pairwise_categorical` in
one-vs-rest mode: for every group, count the 2×2 contingency cells of
group-vs-rest over the full dataset for each retained feature. -/
def oneVsRestRows {G F : Type} [DecidableEq G] [DecidableEq F]
    (fisher : ℕ → ℕ → ℕ → ℕ → ℚ) (df : List (G × F))
    (groups : List G) (feats : List F) : List (CatRow G F) :=
  groups.flatMap (fun g =>
    feats.map (fun feat =>
      let a := (df.filter (fun r => r.1 == g && r.2 == feat)).length
      let b := (df.filter (fun r => r.1 == g && r.2 != feat)).length
      let c := (df.filter (fun r => r.1 != g && r.2 == feat)).length
      let d := (df.filter (fun r => r.1 != g && r.2 != feat)).length
      { g1 := g, g2 := none, feature := feat, count1 := a, count2 := c,
        pValue := fisher a b c d }))

/-- What `res_df.sort_values('P_adj')` guarantees of its output and no
more: the rows are a permutation of the input rows, ascending in the
adjusted p-value key (missing values last).  Pandas' default sort kind is
`quicksort`, which is NOT stable, so the relative order of rows with equal
keys is unspecified; the sort is therefore abstracted as a parameter of
`run_pairwise_categorical` constrained only by this predicate. -/
def SortsByPAdj {G F : Type}
    (sort_values : List (CatRowOut G F) → List (CatRowOut G F)) : Prop :=
  ∀ l : List (CatRowOut G F),
    (sort_values l).Perm l ∧ (sort_values l).Sorted catRowLe

/-- `StatHelper.run_pairwise_categorical`: filter the features by the
`min_obs` threshold (returning an empty table when none survives),
enumerate the comparisons of the selected mode, batch-correct the p-values
with `get_fdr`, attach them, and sort the table by adjusted p-value.  A
mode string other than the two supported ones produces no records and
hence an empty table.  The final `sort_values('P_adj')` is a parameter:
pandas' default sort kind (`quicksort`) promises an ascending reordering
but not stability, so any function satisfying `SortsByPAdj` is a possible
behaviour of the source line, and the theorems below assume exactly
that. -/
def run_pairwise_categorical {G F : Type} [DecidableEq G] [DecidableEq F]
    (fisher : ℕ → ℕ → ℕ → ℕ → ℚ)
    (sort_values : List (CatRowOut G F) → List (CatRowOut G F))
    (df : List (G × F)) (mode : String) (min_obs : ℕ) :
    List (CatRowOut G F) :=
  let valid_features := validFeatures df min_obs
  if valid_features.isEmpty then []
  else
    let groups := uniqueFirst (df.map Prod.fst)
    let results : List (CatRow G F) :=
      if mode = "one_vs_one" then
        oneVsOneRows fisher df groups valid_features
      else if mode = "one_vs_rest" then
        oneVsRestRows fisher df groups valid_features
      else []
    if results.isEmpty then []
    else
      let adj := get_fdr (results.map (fun r => some r.pValue))
      let withAdj := List.zipWith (fun ir q => CatRowOut.mk ir.1 ir.2 q)
        results.enum adj
      sort_values withAdj

theorem mem_uniqueAux [DecidableEq α] (l : List α) (seen : List α) (x : α) :
    x ∈ uniqueAux l seen ↔ x ∈ l ∧ x ∉ seen := by
  induction l generalizing seen with
  | nil => simp [uniqueAux]
  | cons a l ih =>
    rw [uniqueAux]
    by_cases h : a ∈ seen
    · rw [if_pos h]
      simp only [ih, List.mem_cons]
      by_cases hxa : x = a
      · subst hxa
        simp [h]
      · simp [hxa]
    · rw [if_neg h]
      simp only [List.mem_cons, ih]
      by_cases hxa : x = a
      · subst hxa
        simp [h]
      · simp [hxa]

theorem nodup_uniqueAux [DecidableEq α] (l seen : List α) :
    (uniqueAux l seen).Nodup := by
  induction l generalizing seen with
  | nil => exact List.nodup_nil
  | cons a l ih =>
    rw [uniqueAux]
    by_cases h : a ∈ seen
    · rw [if_pos h]
      exact ih seen
    · rw [if_neg h]
      refine List.nodup_cons.mpr ⟨fun hmem => ?_, ih _⟩
      rw [mem_uniqueAux] at hmem
      exact hmem.2 (List.mem_cons_self a seen)

theorem mem_uniqueFirst [DecidableEq α] (l : List α) (x : α) :
    x ∈ uniqueFirst l ↔ x ∈ l := by
  unfold uniqueFirst
  rw [mem_uniqueAux]
  simp

theorem nodup_uniqueFirst [DecidableEq α] (l : List α) :
    (uniqueFirst l).Nodup :=
  nodup_uniqueAux l []

theorem combos2_length (l : List α) :
    (combos2 l).length = l.length.choose 2 := by
  induction l with
  | nil => rfl
  | cons g gs ih =>
    rw [combos2, List.length_append, List.length_map, ih, List.length_cons,
      Nat.choose_succ_succ, Nat.choose_one_right]

theorem mem_combos2 {l : List α} {p : α × α} (hp : p ∈ combos2 l) :
    p.1 ∈ l ∧ p.2 ∈ l := by
  induction l with
  | nil => simp [combos2] at hp
  | cons g gs ih =>
    rw [combos2, List.mem_append] at hp
    rcases hp with hp | hp
    · obtain ⟨h, hh, rfl⟩ := List.mem_map.mp hp
      exact ⟨List.mem_cons_self g gs, List.mem_cons_of_mem _ hh⟩
    · obtain ⟨h1, h2⟩ := ih hp
      exact ⟨List.mem_cons_of_mem _ h1, List.mem_cons_of_mem _ h2⟩

theorem combos2_ne {l : List α} (hl : l.Nodup) {p : α × α}
    (hp : p ∈ combos2 l) : p.1 ≠ p.2 := by
  induction l with
  | nil => simp [combos2] at hp
  | cons g gs ih =>
    rw [combos2, List.mem_append] at hp
    obtain ⟨hg, hgs⟩ := List.nodup_cons.mp hl
    rcases hp with hp | hp
    · obtain ⟨b, hb, rfl⟩ := List.mem_map.mp hp
      intro he
      have he2 : g = b := he
      subst he2
      exact hg hb
    · exact ih hgs hp

theorem mem_value_counts {β : Type} [DecidableEq β] (col : List β)
    (vc : β × ℕ) :
    vc ∈ value_counts col ↔
      vc ∈ (uniqueFirst col).map (fun v => (v, col.count v)) := by
  unfold value_counts
  exact (List.perm_insertionSort _ _).mem_iff

theorem mem_validFeatures {G F : Type} [DecidableEq G] [DecidableEq F]
    (df : List (G × F)) (min_obs : ℕ) (f : F) :
    f ∈ validFeatures df min_obs ↔
      f ∈ uniqueFirst (df.map Prod.snd) ∧
        min_obs < (df.map Prod.snd).count f := by
  unfold validFeatures
  rw [List.mem_map]
  constructor
  · rintro ⟨vc, hvc, rfl⟩
    rw [List.mem_filter] at hvc
    obtain ⟨hmem, hcnt⟩ := hvc
    rw [mem_value_counts] at hmem
    obtain ⟨v, hv, rfl⟩ := List.mem_map.mp hmem
    exact ⟨hv, by simpa using hcnt⟩
  · rintro ⟨hf, hcnt⟩
    refine ⟨(f, (df.map Prod.snd).count f), ?_, rfl⟩
    rw [List.mem_filter, mem_value_counts]
    exact ⟨List.mem_map.mpr ⟨f, hf, rfl⟩, by simpa using hcnt⟩

/-- C10.  A mode string other than `one_vs_one` and `one_vs_rest` makes
`run_pairwise_categorical` return an empty table, with no test executed and
no error, whatever the dataset and threshold. -/
theorem C10_unknown_mode_empty {G F : Type} [DecidableEq G] [DecidableEq F]
    (fisher : ℕ → ℕ → ℕ → ℕ → ℚ)
    (sort_values : List (CatRowOut G F) → List (CatRowOut G F))
    (df : List (G × F)) (mode : String)
    (min_obs : ℕ) (h1 : mode ≠ "one_vs_one") (h2 : mode ≠ "one_vs_rest") :
    run_pairwise_categorical fisher sort_values df mode min_obs = [] := by
  simp [run_pairwise_categorical, h1, h2]

theorem C10_unknown_mode_empty_witness :
    run_pairwise_categorical (G := ℕ) (F := ℕ) (fun _ _ _ _ => 1)
      (fun l => l.insertionSort catRowLe) [(0, 0), (1, 0)]
      "one_vs_all" 0 = [] :=
  C10_unknown_mode_empty (fun _ _ _ _ => 1)
    (fun l => l.insertionSort catRowLe) [(0, 0), (1, 0)] "one_vs_all" 0
    (by decide) (by decide)

/-- C4.  The feature-retention predicate of `run_pairwise_categorical` is a
strict comparison: a feature whose global count equals `min_obs` is dropped,
and one whose global count is `min_obs + 1` is retained. -/
theorem C4_min_obs_strict {G F : Type} [DecidableEq G] [DecidableEq F]
    (df : List (G × F)) (min_obs : ℕ) (f : F) :
    ((df.map Prod.snd).count f = min_obs → f ∉ validFeatures df min_obs) ∧
    ((df.map Prod.snd).count f = min_obs + 1 →
      f ∈ validFeatures df min_obs) := by
  constructor
  · intro hcnt hmem
    rw [mem_validFeatures, hcnt] at hmem
    exact lt_irrefl _ hmem.2
  · intro hcnt
    rw [mem_validFeatures, hcnt, mem_uniqueFirst]
    refine ⟨?_, Nat.lt_succ_self _⟩
    have hpos : 0 < (df.map Prod.snd).count f := by
      rw [hcnt]
      exact Nat.succ_pos _
    exact List.count_pos_iff.mp hpos

theorem C4_min_obs_strict_witness :
    ((0 : ℕ) ∉ validFeatures (G := ℕ) [(0, 0), (0, 0), (0, 1)] 2) ∧
    ((0 : ℕ) ∈ validFeatures (G := ℕ) [(0, 0), (0, 0), (0, 1)] 1) :=
  ⟨(C4_min_obs_strict [(0, 0), (0, 0), (0, 1)] 2 0).1 (by decide),
   (C4_min_obs_strict [(0, 0), (0, 0), (0, 1)] 1 0).2 (by decide)⟩

/-- The local `results` list of `run_pairwise_categorical`, named for use in
the statements of the bridge lemmas below (definitionally the same
expression as in the function body). -/
def catResults {G F : Type} [DecidableEq G] [DecidableEq F]
    (fisher : ℕ → ℕ → ℕ → ℕ → ℚ) (df : List (G × F)) (mode : String)
    (min_obs : ℕ) : List (CatRow G F) :=
  if mode = "one_vs_one" then
    oneVsOneRows fisher df (uniqueFirst (df.map Prod.fst))
      (validFeatures df min_obs)
  else if mode = "one_vs_rest" then
    oneVsRestRows fisher df (uniqueFirst (df.map Prod.fst))
      (validFeatures df min_obs)
  else []

theorem run_pairwise_categorical_eq {G F : Type} [DecidableEq G]
    [DecidableEq F] (fisher : ℕ → ℕ → ℕ → ℕ → ℚ)
    (sort_values : List (CatRowOut G F) → List (CatRowOut G F))
    (df : List (G × F)) (mode : String) (min_obs : ℕ) :
    run_pairwise_categorical fisher sort_values df mode min_obs =
      if (validFeatures df min_obs).isEmpty then []
      else if (catResults fisher df mode min_obs).isEmpty then []
      else
        sort_values (List.zipWith (fun ir q => CatRowOut.mk ir.1 ir.2 q)
          (catResults fisher df mode min_obs).enum
          (get_fdr ((catResults fisher df mode min_obs).map
            (fun r => some r.pValue)))) := rfl

theorem zipWith_left_proj {α β γ : Type} (f : α → γ) :
    ∀ (l1 : List α) (l2 : List β), l1.length ≤ l2.length →
      List.zipWith (fun a _ => f a) l1 l2 = l1.map f
  | [], _, _ => by simp
  | a :: l1, [], h => by simp at h
  | a :: l1, b :: l2, h => by
    rw [List.zipWith_cons_cons, List.map_cons,
      zipWith_left_proj f l1 l2 (by simpa using h)]

theorem enum_length {α : Type} (l : List α) : l.enum.length = l.length :=
  List.enumFrom_length

theorem adj_length {G F : Type} (results : List (CatRow G F)) :
    (get_fdr (results.map (fun r => some r.pValue))).length =
      results.length := by
  rw [get_fdr_length, List.length_map]

/-- The rows of the final sorted table are a permutation of the unadjusted
result records, for every sort satisfying the pandas guarantee. -/
theorem run_rows_perm {G F : Type} [DecidableEq G] [DecidableEq F]
    (fisher : ℕ → ℕ → ℕ → ℕ → ℚ)
    (sort_values : List (CatRowOut G F) → List (CatRowOut G F))
    (hsort : SortsByPAdj sort_values) (df : List (G × F)) (mode : String)
    (min_obs : ℕ) (hne : ¬(validFeatures df min_obs).isEmpty)
    (hres : ¬(catResults fisher df mode min_obs).isEmpty) :
    ((run_pairwise_categorical fisher sort_values df mode min_obs).map
      CatRowOut.row).Perm (catResults fisher df mode min_obs) := by
  rw [run_pairwise_categorical_eq, if_neg hne, if_neg hres]
  set results := catResults fisher df mode min_obs with hr
  have hmap : ((List.zipWith (fun ir q => CatRowOut.mk ir.1 ir.2 q)
      results.enum
      (get_fdr (results.map (fun r => some r.pValue)))).map CatRowOut.row) =
      results := by
    rw [List.map_zipWith]
    have := zipWith_left_proj (fun ir : ℕ × CatRow G F => ir.2) results.enum
      (get_fdr (results.map (fun r => some r.pValue)))
      (by rw [adj_length, enum_length])
    rw [this]
    exact List.enumFrom_map_snd 0 results
  have hperm := ((hsort
    (List.zipWith (fun ir q => CatRowOut.mk ir.1 ir.2 q) results.enum
      (get_fdr (results.map (fun r => some r.pValue))))).1).map CatRowOut.row
  rw [hmap] at hperm
  exact hperm

theorem run_length_eq {G F : Type} [DecidableEq G] [DecidableEq F]
    (fisher : ℕ → ℕ → ℕ → ℕ → ℚ)
    (sort_values : List (CatRowOut G F) → List (CatRowOut G F))
    (hsort : SortsByPAdj sort_values) (df : List (G × F)) (mode : String)
    (min_obs : ℕ) (hne : ¬(validFeatures df min_obs).isEmpty) :
    (run_pairwise_categorical fisher sort_values df mode min_obs).length =
      (catResults fisher df mode min_obs).length := by
  rw [run_pairwise_categorical_eq, if_neg hne]
  by_cases hres : (catResults fisher df mode min_obs).isEmpty
  · rw [if_pos hres]
    rw [List.isEmpty_eq_true] at hres
    simp [hres]
  · rw [if_neg hres, (hsort _).1.length_eq, List.length_zipWith,
      adj_length, enum_length, Nat.min_self]

theorem sum_map_add_nat {α : Type} (l : List α) (f g : α → ℕ) :
    (l.map (fun x => f x + g x)).sum = (l.map f).sum + (l.map g).sum := by
  induction l with
  | nil => rfl
  | cons a l ih =>
    simp only [List.map_cons, List.sum_cons, ih]
    omega

theorem sum_map_ite_of_not_mem {β : Type} [DecidableEq β] (l : List β)
    (b : β) (k : β → ℕ) (hb : b ∉ l) :
    (l.map (fun x => if x = b then k x else 0)).sum = 0 := by
  induction l with
  | nil => rfl
  | cons a l ih =>
    rw [List.map_cons, List.sum_cons]
    have hab : ¬(a = b) := by
      intro h
      subst h
      exact hb (List.mem_cons_self a l)
    rw [if_neg hab, ih (fun h => hb (List.mem_cons_of_mem _ h)), Nat.add_zero]

theorem sum_map_ite_of_nodup {β : Type} [DecidableEq β] (l : List β) (b : β)
    (k : β → ℕ) (hnd : l.Nodup) (hb : b ∈ l) :
    (l.map (fun x => if x = b then k x else 0)).sum = k b := by
  induction l with
  | nil => simp at hb
  | cons a l ih =>
    obtain ⟨ha, hnd2⟩ := List.nodup_cons.mp hnd
    rw [List.map_cons, List.sum_cons]
    by_cases hab : a = b
    · subst hab
      rw [if_pos rfl, sum_map_ite_of_not_mem l a k ha, Nat.add_zero]
    · rw [if_neg hab, Nat.zero_add]
      refine ih hnd2 ?_
      rcases List.mem_cons.mp hb with h | hbl
      · exact absurd h.symm hab
      · exact hbl

theorem length_flatMap_const {α β : Type} (l : List α) (f : α → List β)
    (k : ℕ) (h : ∀ a ∈ l, (f a).length = k) :
    (l.flatMap f).length = l.length * k := by
  induction l with
  | nil => simp
  | cons a l ih =>
    rw [List.flatMap_cons, List.length_append, h a (List.mem_cons_self a l),
      ih (fun x hx => h x (List.mem_cons_of_mem _ hx)), List.length_cons]
    ring

theorem sum_map_flatMap_nat {α β : Type} (l : List α) (f : α → List β)
    (g : β → ℕ) :
    ((l.flatMap f).map g).sum =
      (l.map (fun a => ((f a).map g).sum)).sum := by
  induction l with
  | nil => rfl
  | cons a l ih =>
    simp only [List.flatMap_cons, List.map_append, List.sum_append,
      List.map_cons, List.sum_cons, ih]

theorem length_filter_two_disjoint_le {α : Type} (l : List α)
    (p q s : α → Bool) (hp : ∀ a, p a = true → s a = true)
    (hq : ∀ a, q a = true → s a = true)
    (hpq : ∀ a, ¬(p a = true ∧ q a = true)) :
    (l.filter p).length + (l.filter q).length ≤ (l.filter s).length := by
  induction l with
  | nil => simp
  | cons a l ih =>
    rw [List.filter_cons, List.filter_cons, List.filter_cons]
    by_cases hpa : p a = true <;> by_cases hqa : q a = true
    · exact absurd ⟨hpa, hqa⟩ (hpq a)
    · have hsa := hp a hpa
      simp [hpa, hqa, hsa]
      omega
    · have hsa := hq a hqa
      simp [hpa, hqa, hsa]
      omega
    · by_cases hsa : s a = true <;> simp [hpa, hqa, hsa] <;> omega

/-- Partitioning the rows by group: summing a filtered row count over a
duplicate-free list of groups covering every row gives the global count. -/
theorem sum_counts_by_group {G F : Type} [DecidableEq G] [DecidableEq F]
    (df : List (G × F)) (groups : List G) (P : G × F → Bool)
    (hnd : groups.Nodup) (hcov : ∀ r ∈ df, r.1 ∈ groups) :
    (groups.map
      (fun g => (df.filter (fun r => r.1 == g && P r)).length)).sum =
      (df.filter P).length := by
  induction df with
  | nil => simp
  | cons r df ih =>
    have hcov2 : ∀ x ∈ df, x.1 ∈ groups :=
      fun x hx => hcov x (List.mem_cons_of_mem _ hx)
    have hr : r.1 ∈ groups := hcov r (List.mem_cons_self r df)
    have hmap : groups.map
        (fun g => ((r :: df).filter (fun x => x.1 == g && P x)).length) =
        groups.map (fun g => (if (r.1 == g && P r) = true then 1 else 0) +
          (df.filter (fun x => x.1 == g && P x)).length) := by
      apply List.map_congr_left
      intro g _
      rw [List.filter_cons]
      by_cases h : (r.1 == g && P r) = true
      · rw [if_pos h, if_pos h, List.length_cons]
        omega
      · rw [if_neg h, if_neg h]
        omega
    rw [hmap, sum_map_add_nat, ih hcov2, List.filter_cons]
    by_cases hP : P r = true
    · have hind : groups.map
          (fun g => if (r.1 == g && P r) = true then 1 else 0) =
          groups.map (fun g => if g = r.1 then (fun _ => 1) g else 0) := by
        apply List.map_congr_left
        intro g _
        rw [hP, Bool.and_true]
        by_cases hg : g = r.1
        · rw [if_pos (by simp [hg]), if_pos hg]
        · rw [if_neg (by simp [Ne.symm hg]), if_neg hg]
      rw [hind, sum_map_ite_of_nodup groups r.1 (fun _ => 1) hnd hr,
        if_pos hP, List.length_cons]
      omega
    · have hind : groups.map
          (fun g => if (r.1 == g && P r) = true then 1 else 0) =
          groups.map (fun _ => 0) := by
        apply List.map_congr_left
        intro g _
        rw [if_neg (by simp [hP])]
      rw [hind, if_neg hP]
      simp

theorem catResults_ovo {G F : Type} [DecidableEq G] [DecidableEq F]
    (fisher : ℕ → ℕ → ℕ → ℕ → ℚ) (df : List (G × F)) (min_obs : ℕ) :
    catResults fisher df "one_vs_one" min_obs =
      oneVsOneRows fisher df (uniqueFirst (df.map Prod.fst))
        (validFeatures df min_obs) := by
  unfold catResults
  rw [if_pos rfl]

theorem catResults_ovr {G F : Type} [DecidableEq G] [DecidableEq F]
    (fisher : ℕ → ℕ → ℕ → ℕ → ℚ) (df : List (G × F)) (min_obs : ℕ) :
    catResults fisher df "one_vs_rest" min_obs =
      oneVsRestRows fisher df (uniqueFirst (df.map Prod.fst))
        (validFeatures df min_obs) := by
  unfold catResults
  rw [if_neg (by decide), if_pos rfl]

theorem oneVsOneRows_length {G F : Type} [DecidableEq G] [DecidableEq F]
    (fisher : ℕ → ℕ → ℕ → ℕ → ℚ) (df : List (G × F)) (groups : List G)
    (feats : List F) :
    (oneVsOneRows fisher df groups feats).length =
      groups.length.choose 2 * feats.length := by
  unfold oneVsOneRows
  rw [length_flatMap_const _ _ feats.length (fun pr _ => by
    rw [List.length_map]), combos2_length]

theorem oneVsRestRows_length {G F : Type} [DecidableEq G] [DecidableEq F]
    (fisher : ℕ → ℕ → ℕ → ℕ → ℚ) (df : List (G × F)) (groups : List G)
    (feats : List F) :
    (oneVsRestRows fisher df groups feats).length =
      groups.length * feats.length := by
  unfold oneVsRestRows
  rw [length_flatMap_const _ _ feats.length (fun g _ => by
    rw [List.length_map])]

theorem filter_pair_subset_eq {G F : Type} [DecidableEq G] [DecidableEq F]
    (df : List (G × F)) (g1 g2 gg : G) (f : F) (hgg : gg = g1 ∨ gg = g2) :
    ((df.filter (fun r => r.1 == g1 || r.1 == g2)).filter
      (fun r => r.1 == gg && r.2 == f)).length =
    (df.filter (fun r => r.1 == gg && r.2 == f)).length := by
  rw [List.filter_filter]
  congr 1
  apply List.filter_congr
  intro r _
  cases hc : (r.1 == gg) with
  | false => simp [hc]
  | true =>
    cases hf : (r.2 == f) with
    | false => simp [hc, hf]
    | true =>
      have hr : r.1 = gg := by simpa using hc
      rcases hgg with rfl | rfl
      · simp [hc, hf, hr]
      · simp [hc, hf, hr]

/-- Every record of `oneVsOneRows` carries the exact dataset counts of its
feature within its two compared groups (the restriction to the two-group
subset does not change those counts). -/
theorem oneVsOneRows_mem_spec {G F : Type} [DecidableEq G] [DecidableEq F]
    (fisher : ℕ → ℕ → ℕ → ℕ → ℚ) (df : List (G × F)) (groups : List G)
    (feats : List F) (hnd : groups.Nodup) (r : CatRow G F)
    (hr : r ∈ oneVsOneRows fisher df groups feats) :
    ∃ g2, r.g2 = some g2 ∧ r.g1 ≠ g2 ∧
      r.count1 =
        (df.filter (fun x => x.1 == r.g1 && x.2 == r.feature)).length ∧
      r.count2 =
        (df.filter (fun x => x.1 == g2 && x.2 == r.feature)).length := by
  unfold oneVsOneRows at hr
  obtain ⟨pr, hpr, hmem⟩ := List.mem_flatMap.mp hr
  obtain ⟨f, hf, heq⟩ := List.mem_map.mp hmem
  subst heq
  refine ⟨pr.2, rfl, combos2_ne hnd hpr, ?_, ?_⟩
  · exact filter_pair_subset_eq df pr.1 pr.2 pr.1 f (Or.inl rfl)
  · exact filter_pair_subset_eq df pr.1 pr.2 pr.2 f (Or.inr rfl)

theorem count_pair_le {G F : Type} [DecidableEq G] [DecidableEq F]
    (df : List (G × F)) (g1 g2 : G) (f : F) (hne : g1 ≠ g2) :
    (df.filter (fun x => x.1 == g1 && x.2 == f)).length +
      (df.filter (fun x => x.1 == g2 && x.2 == f)).length ≤
      (df.filter (fun x => x.1 == g1 || x.1 == g2)).length := by
  apply length_filter_two_disjoint_le
  · intro a h
    rw [Bool.and_eq_true] at h
    rw [Bool.or_eq_true]
    exact Or.inl h.1
  · intro a h
    rw [Bool.and_eq_true] at h
    rw [Bool.or_eq_true]
    exact Or.inr h.1
  · rintro a ⟨h1, h2⟩
    rw [Bool.and_eq_true] at h1 h2
    have e1 : a.1 = g1 := by simpa using h1.1
    have e2 : a.1 = g2 := by simpa using h2.1
    exact hne (e1 ▸ e2)

theorem oneVsOneRows_labels {G F : Type} [DecidableEq G] [DecidableEq F]
    (fisher : ℕ → ℕ → ℕ → ℕ → ℚ) (df : List (G × F)) (groups : List G)
    (feats : List F) :
    (oneVsOneRows fisher df groups feats).map
        (fun r => (r.g1, r.g2, r.feature)) =
      (combos2 groups).flatMap
        (fun pr => feats.map (fun f => (pr.1, some pr.2, f))) := by
  unfold oneVsOneRows
  rw [List.map_flatMap]
  congr 1
  funext pr
  rw [List.map_map]
  rfl

/-- C5.  In one-vs-one mode, `run_pairwise_categorical` produces exactly
`C(n,2) * k` rows for `n` distinct groups and `k` retained features; the
(comparison, feature) labels enumerate every unordered pair of distinct
groups with every retained feature exactly once; and in every row
`Count_G1`/`Count_G2` are the exact dataset counts of the feature within
the first/second compared group, their sum bounded by the number of rows
of the two groups combined. -/
theorem C5_one_vs_one_shape {G F : Type} [DecidableEq G] [DecidableEq F]
    (fisher : ℕ → ℕ → ℕ → ℕ → ℚ)
    (sort_values : List (CatRowOut G F) → List (CatRowOut G F))
    (hsort : SortsByPAdj sort_values) (df : List (G × F)) (min_obs : ℕ) :
    (run_pairwise_categorical fisher sort_values df "one_vs_one"
        min_obs).length =
      (uniqueFirst (df.map Prod.fst)).length.choose 2 *
        (validFeatures df min_obs).length ∧
    ((run_pairwise_categorical fisher sort_values df "one_vs_one"
        min_obs).map
        (fun o => (o.row.g1, o.row.g2, o.row.feature))).Perm
      ((combos2 (uniqueFirst (df.map Prod.fst))).flatMap
        (fun pr => (validFeatures df min_obs).map
          (fun f => (pr.1, some pr.2, f)))) ∧
    (∀ o ∈ run_pairwise_categorical fisher sort_values df "one_vs_one"
        min_obs,
      ∀ g2, o.row.g2 = some g2 →
        o.row.count1 = (df.filter
          (fun r => r.1 == o.row.g1 && r.2 == o.row.feature)).length ∧
        o.row.count2 = (df.filter
          (fun r => r.1 == g2 && r.2 == o.row.feature)).length ∧
        o.row.count1 + o.row.count2 ≤
          (df.filter (fun r => r.1 == o.row.g1 || r.1 == g2)).length) := by
  by_cases hne : (validFeatures df min_obs).isEmpty
  · rw [run_pairwise_categorical_eq, if_pos hne]
    rw [List.isEmpty_eq_true] at hne
    refine ⟨by simp [hne], ?_, by simp⟩
    simp [hne]
  · have hlen : (run_pairwise_categorical fisher sort_values df "one_vs_one"
        min_obs).length = (uniqueFirst (df.map Prod.fst)).length.choose 2 *
        (validFeatures df min_obs).length := by
      rw [run_length_eq fisher sort_values hsort df _ _ hne, catResults_ovo,
        oneVsOneRows_length]
    refine ⟨hlen, ?_, ?_⟩
    · by_cases hres : (catResults fisher df "one_vs_one" min_obs).isEmpty
      · rw [run_pairwise_categorical_eq, if_neg hne, if_pos hres]
        rw [List.isEmpty_eq_true, catResults_ovo] at hres
        have hk : (validFeatures df min_obs).length ≠ 0 := by
          rw [List.isEmpty_eq_true] at hne
          simpa [List.length_eq_zero] using hne
        have hc0 : (combos2 (uniqueFirst (df.map Prod.fst))).length = 0 := by
          have h0 := congrArg List.length hres
          rw [oneVsOneRows_length, List.length_nil] at h0
          rcases Nat.mul_eq_zero.mp h0 with h | h
          · rwa [combos2_length]
          · exact absurd h hk
        rw [List.length_eq_zero] at hc0
        rw [hc0]
        simp
      · have hperm := (run_rows_perm fisher sort_values hsort df "one_vs_one"
          min_obs hne hres).map (fun r : CatRow G F => (r.g1, r.g2, r.feature))
        rw [List.map_map] at hperm
        rw [catResults_ovo, oneVsOneRows_labels] at hperm
        exact hperm
    · intro o ho g2 hg2
      by_cases hres : (catResults fisher df "one_vs_one" min_obs).isEmpty
      · rw [run_pairwise_categorical_eq, if_neg hne, if_pos hres] at ho
        simp at ho
      · have hrow : o.row ∈ catResults fisher df "one_vs_one" min_obs :=
          (run_rows_perm fisher sort_values hsort df "one_vs_one" min_obs hne
            hres).mem_iff.mp (List.mem_map_of_mem CatRowOut.row ho)
        rw [catResults_ovo] at hrow
        obtain ⟨g2x, hg2x, hnex, hc1, hc2⟩ := oneVsOneRows_mem_spec fisher df
          (uniqueFirst (df.map Prod.fst)) (validFeatures df min_obs)
          (nodup_uniqueFirst _) o.row hrow
        rw [hg2x] at hg2
        have hgg : g2x = g2 := Option.some_inj.mp hg2
        subst hgg
        refine ⟨hc1, hc2, ?_⟩
        rw [hc1, hc2]
        exact count_pair_le df o.row.g1 g2x o.row.feature hnex

theorem validFeatures_nodup {G F : Type} [DecidableEq G] [DecidableEq F]
    (df : List (G × F)) (min_obs : ℕ) : (validFeatures df min_obs).Nodup := by
  have h1 : ((value_counts (df.map Prod.snd)).map Prod.fst).Nodup := by
    have hperm : ((value_counts (df.map Prod.snd)).map Prod.fst).Perm
        (((uniqueFirst (df.map Prod.snd)).map
          (fun v => (v, (df.map Prod.snd).count v))).map Prod.fst) :=
      (List.perm_insertionSort _ _).map _
    rw [hperm.nodup_iff, List.map_map]
    have hcomp : (Prod.fst ∘ fun v : F => (v, (df.map Prod.snd).count v)) =
        id := rfl
    rw [hcomp, List.map_id]
    exact nodup_uniqueFirst (df.map Prod.snd)
  unfold validFeatures
  exact h1.sublist ((List.filter_sublist _).map Prod.fst)

theorem oneVsRestRows_ne_nil {G F : Type} [DecidableEq G] [DecidableEq F]
    (fisher : ℕ → ℕ → ℕ → ℕ → ℚ) (df : List (G × F)) (groups : List G)
    (feats : List F) (hg : groups ≠ []) (hf : feats ≠ []) :
    oneVsRestRows fisher df groups feats ≠ [] := by
  intro h
  have hlen := congrArg List.length h
  rw [oneVsRestRows_length, List.length_nil] at hlen
  rcases Nat.mul_eq_zero.mp hlen with h0 | h0
  · exact hg (List.length_eq_zero.mp h0)
  · exact hf (List.length_eq_zero.mp h0)

/-- C6.  In one-vs-rest mode, `run_pairwise_categorical` produces exactly
`n * k` rows for `n` distinct groups and `k` retained features, and for
every retained feature the `In_Group_Count` entries summed over all groups
give the feature's global count in the dataset. -/
theorem C6_one_vs_rest_shape {G F : Type} [DecidableEq G] [DecidableEq F]
    (fisher : ℕ → ℕ → ℕ → ℕ → ℚ)
    (sort_values : List (CatRowOut G F) → List (CatRowOut G F))
    (hsort : SortsByPAdj sort_values) (df : List (G × F)) (min_obs : ℕ) :
    (run_pairwise_categorical fisher sort_values df "one_vs_rest"
        min_obs).length =
      (uniqueFirst (df.map Prod.fst)).length *
        (validFeatures df min_obs).length ∧
    (∀ f ∈ validFeatures df min_obs,
      ((run_pairwise_categorical fisher sort_values df "one_vs_rest"
        min_obs).map
        (fun o => if o.row.feature = f then o.row.count1 else 0)).sum =
        (df.filter (fun r => r.2 == f)).length) := by
  constructor
  · by_cases hne : (validFeatures df min_obs).isEmpty
    · rw [run_pairwise_categorical_eq, if_pos hne]
      rw [List.isEmpty_eq_true] at hne
      simp [hne]
    · rw [run_length_eq fisher sort_values hsort df _ _ hne, catResults_ovr,
        oneVsRestRows_length]
  · intro f hf
    have hne : ¬(validFeatures df min_obs).isEmpty := by
      rw [List.isEmpty_eq_true]
      exact List.ne_nil_of_mem hf
    have hcnt : 0 < (df.map Prod.snd).count f :=
      lt_of_le_of_lt (Nat.zero_le _) ((mem_validFeatures df min_obs f).mp hf).2
    have hdf : df ≠ [] := by
      intro h
      subst h
      simp at hcnt
    have hg : uniqueFirst (df.map Prod.fst) ≠ [] := by
      intro h
      cases df with
      | nil => exact hdf rfl
      | cons r df2 =>
        have : r.1 ∈ uniqueFirst ((r :: df2).map Prod.fst) := by
          rw [mem_uniqueFirst]
          exact List.mem_map_of_mem Prod.fst (List.mem_cons_self r df2)
        rw [h] at this
        simp at this
    have hres : ¬(catResults fisher df "one_vs_rest" min_obs).isEmpty := by
      rw [List.isEmpty_eq_true, catResults_ovr]
      exact oneVsRestRows_ne_nil fisher df _ _ hg (List.ne_nil_of_mem hf)
    have hperm2 : ((run_pairwise_categorical fisher sort_values df
        "one_vs_rest" min_obs).map
        (fun o => if o.row.feature = f then o.row.count1 else 0)).Perm
        ((catResults fisher df "one_vs_rest" min_obs).map
          (fun r => if r.feature = f then r.count1 else 0)) := by
      have h := (run_rows_perm fisher sort_values hsort df "one_vs_rest"
        min_obs hne hres).map
        (fun r : CatRow G F => if r.feature = f then r.count1 else 0)
      rw [List.map_map] at h
      exact h
    rw [hperm2.sum_eq, catResults_ovr]
    unfold oneVsRestRows
    rw [sum_map_flatMap_nat]
    have hinner : (uniqueFirst (df.map Prod.fst)).map
        (fun g => (((validFeatures df min_obs).map (fun feat =>
          let a := (df.filter (fun r => r.1 == g && r.2 == feat)).length
          let b := (df.filter (fun r => r.1 == g && r.2 != feat)).length
          let c := (df.filter (fun r => r.1 != g && r.2 == feat)).length
          let d := (df.filter (fun r => r.1 != g && r.2 != feat)).length
          CatRow.mk g none feat a c (fisher a b c d))).map
            (fun r => if r.feature = f then r.count1 else 0)).sum) =
        (uniqueFirst (df.map Prod.fst)).map
          (fun g => (df.filter (fun r => r.1 == g && r.2 == f)).length) := by
      apply List.map_congr_left
      intro g _
      rw [List.map_map]
      exact sum_map_ite_of_nodup (validFeatures df min_obs) f
        (fun feat => (df.filter (fun r => r.1 == g && r.2 == feat)).length)
        (validFeatures_nodup df min_obs) hf
    rw [hinner]
    exact sum_counts_by_group df (uniqueFirst (df.map Prod.fst))
      (fun r => r.2 == f) (nodup_uniqueFirst _)
      (fun r hr => (mem_uniqueFirst _ _).mpr (List.mem_map_of_mem Prod.fst hr))

/-- The rows of the adjusted (pre-sort) table carry their position as their
pandas row label. -/
theorem withAdj_idx {G F : Type} (results : List (CatRow G F))
    (adj : List PCell) (t : ℕ)
    (ht : t < (List.zipWith (fun ir q => CatRowOut.mk ir.1 ir.2 q)
      results.enum adj).length) :
    ((List.zipWith (fun ir q => CatRowOut.mk ir.1 ir.2 q)
      results.enum adj)[t]).idx = t := by
  rw [List.getElem_zipWith]
  have ht1 : t < (results.enumFrom 0).length := by
    rw [List.length_zipWith, enum_length] at ht
    rw [List.enumFrom_length]
    omega
  show ((results.enumFrom 0)[t]).1 = t
  simp

theorem withAdj_map_idx {G F : Type} (results : List (CatRow G F))
    (adj : List PCell) :
    (List.zipWith (fun ir q => CatRowOut.mk ir.1 ir.2 q)
        results.enum adj).map CatRowOut.idx =
      List.range (List.zipWith (fun ir q => CatRowOut.mk ir.1 ir.2 q)
        results.enum adj).length := by
  apply List.ext_getElem
  · rw [List.length_map, List.length_range]
  · intro t h1 h2
    rw [List.getElem_map, List.getElem_range, withAdj_idx]

/-- C3 (amended).  For every sort function satisfying the contract of
`res_df.sort_values(\x27P_adj\x27)` — a permutation of the rows, ascending in
the adjusted p-value with missing values last — the table returned by
`run_pairwise_categorical` is sorted in ascending order of the adjusted
p-value column, and its pandas row labels `idx` are a permutation of the
pre-sort positions `0, ..., len-1`.  The original claim\x27s stability
conjunct (ties keep enumeration order) does not hold: pandas\x27 default
sort kind `quicksort` is not stable, and `C3_counterexample` exhibits a
sort satisfying the contract under which tied rows leave enumeration
order. -/
theorem C3_sorted_by_adjusted {G F : Type} [DecidableEq G] [DecidableEq F]
    (fisher : ℕ → ℕ → ℕ → ℕ → ℚ)
    (sort_values : List (CatRowOut G F) → List (CatRowOut G F))
    (hsort : SortsByPAdj sort_values) (df : List (G × F)) (mode : String)
    (min_obs : ℕ) :
    (run_pairwise_categorical fisher sort_values df mode min_obs).Sorted
      catRowLe ∧
    ((run_pairwise_categorical fisher sort_values df mode min_obs).map
        CatRowOut.idx).Perm
      (List.range
        (run_pairwise_categorical fisher sort_values df mode
          min_obs).length) := by
  rw [run_pairwise_categorical_eq]
  by_cases hne : (validFeatures df min_obs).isEmpty
  · rw [if_pos hne]
    exact ⟨List.sorted_nil, by simp⟩
  · rw [if_neg hne]
    by_cases hres : (catResults fisher df mode min_obs).isEmpty
    · rw [if_pos hres]
      exact ⟨List.sorted_nil, by simp⟩
    · rw [if_neg hres]
      refine ⟨(hsort _).2, ?_⟩
      have hp := ((hsort
        (List.zipWith (fun ir q => CatRowOut.mk ir.1 ir.2 q)
          (catResults fisher df mode min_obs).enum
          (get_fdr ((catResults fisher df mode min_obs).map
            (fun r => some r.pValue))))).1).map CatRowOut.idx
      rw [withAdj_map_idx] at hp
      rw [(hsort _).1.length_eq]
      exact hp

/-! ### Numerical testing (`StatHelper.run_numerical_distributions`) -/

/-- All values of the list are equal (the condition under which the tie
correction of `scipy.stats.kruskal` is zero and it raises). -/
def allSame : List ℚ → Bool
  | [] => true
  | x :: l => l.all (fun y => y == x)

/-- Ascending comparison on rationals, named so that the sort inside
`seriesMedian` has its decidability and order instances. -/
def qLe (a b : ℚ) : Prop := a ≤ b

instance : DecidableRel qLe := fun a b =>
  inferInstanceAs (Decidable (a ≤ b))

instance : IsTotal ℚ qLe := ⟨fun a b => le_total a b⟩

instance : IsTrans ℚ qLe := ⟨fun _ _ _ h h2 => le_trans h h2⟩

/-- The median of a value series as pandas computes it: `none` (NaN) on an
empty series, the middle element of the sorted values for odd length, the
mean of the two middle elements for even length. -/
def seriesMedian (l : List ℚ) : Option ℚ :=
  let s := l.insertionSort qLe
  if l.length = 0 then none
  else if l.length % 2 = 1 then s[l.length / 2]?
  else
    match s[l.length / 2 - 1]?, s[l.length / 2]? with
    | some a, some b => some ((a + b) / 2)
    | _, _ => none

/-- One pairwise row of the numerical tester: the comparison label (as the
ordered pair of group values), the two group medians, and the raw
Mann–Whitney p-value. -/
structure NumRow (G : Type) where
  g1 : G
  g2 : G
  median1 : Option ℚ
  median2 : Option ℚ
  pValue : ℚ
  deriving DecidableEq

/-- A pairwise row with its attached adjusted p-value. -/
structure NumRowOut (G : Type) where
  row : NumRow G
  pAdj : PCell
  deriving DecidableEq

/-- The omnibus record of the Kruskal–Wallis test (the constant test-name
field is omitted); `none` models the NaN statistic and p-value that scipy
returns when some group has no valid values. -/
structure OmnibusNum where
  statistic : PCell
  pvalue : PCell
  deriving DecidableEq

/-- `StatHelper.run_numerical_distributions`, with the opaque numerical
kernels abstracted: `kw` gives the (statistic, p-value) pair of
`scipy.stats.kruskal` on the per-group value lists and `mwu` the p-value
of `scipy.stats.mannwhitneyu` on two value lists.  The error and
small-sample paths of scipy are modelled explicitly, following
scipy ≥ 1.11 (the version floor implied by the repository's use of
`scipy.stats.false_discovery_control`): a group left empty after dropping
missing values makes `kruskal` return a NaN result instead of raising;
fewer than two groups raises; all values identical raises (zero tie
correction).  A NaN omnibus p-value fails the `< 0.05` gate, so no
pairwise test runs. -/
def run_numerical_distributions {G : Type} [DecidableEq G]
    (kw : List (List ℚ) → ℚ × ℚ) (mwu : List ℚ → List ℚ → ℚ)
    (df : List (G × Option ℚ)) :
    Except String (OmnibusNum × List (NumRowOut G)) :=
  let groups := uniqueFirst (df.map Prod.fst)
  let group_data := groups.map
    (fun g => (df.filter (fun r => r.1 == g)).filterMap Prod.snd)
  if group_data.any (fun d => d.isEmpty) then
    Except.ok ({statistic := none, pvalue := none}, [])
  else if groups.length < 2 then
    Except.error "Need at least two groups in stats.kruskal()"
  else if allSame group_data.flatten then
    Except.error "All numbers are identical in kruskal"
  else
    let stat_p := kw group_data
    if stat_p.2 < 1/20 then
      let pairwise_res := (combos2 groups).map (fun pr =>
        let d1 := (df.filter (fun r => r.1 == pr.1)).filterMap Prod.snd
        let d2 := (df.filter (fun r => r.1 == pr.2)).filterMap Prod.snd
        NumRow.mk pr.1 pr.2 (seriesMedian d1) (seriesMedian d2) (mwu d1 d2))
      let adj := get_fdr (pairwise_res.map (fun r => some r.pValue))
      Except.ok ({statistic := some stat_p.1, pvalue := some stat_p.2},
        List.zipWith (fun r q => NumRowOut.mk r q) pairwise_res adj)
    else
      Except.ok ({statistic := some stat_p.1, pvalue := some stat_p.2}, [])

theorem zipWith_right_proj {α β γ : Type} (g : β → γ) :
    ∀ (l1 : List α) (l2 : List β), l2.length ≤ l1.length →
      List.zipWith (fun _ b => g b) l1 l2 = l2.map g
  | _, [], _ => by simp
  | [], b :: l2, h => by simp at h
  | a :: l1, b :: l2, h => by
    rw [List.zipWith_cons_cons, List.map_cons,
      zipWith_right_proj g l1 l2 (by simpa using h)]

theorem numRows_adj_eq {G : Type} (pres : List (NumRow G)) :
    ((List.zipWith (fun r q => NumRowOut.mk r q) pres
        (get_fdr (pres.map (fun r => some r.pValue)))).map
      (fun o => o.pAdj)) =
      get_fdr ((List.zipWith (fun r q => NumRowOut.mk r q) pres
        (get_fdr (pres.map (fun r => some r.pValue)))).map
          (fun o => some o.row.pValue)) := by
  have hlen : (get_fdr (pres.map (fun r => some r.pValue))).length =
      pres.length := by
    rw [get_fdr_length, List.length_map]
  have hL : (List.zipWith (fun r q => NumRowOut.mk r q) pres
      (get_fdr (pres.map (fun r => some r.pValue)))).map (fun o => o.pAdj) =
      get_fdr (pres.map (fun r => some r.pValue)) := by
    rw [List.map_zipWith]
    rw [zipWith_right_proj (fun q : PCell => q) _ _ (le_of_eq hlen)]
    exact List.map_id _
  have hR : (List.zipWith (fun r q => NumRowOut.mk r q) pres
      (get_fdr (pres.map (fun r => some r.pValue)))).map
        (fun o => some o.row.pValue) = pres.map (fun r => some r.pValue) := by
    rw [List.map_zipWith]
    exact zipWith_left_proj (fun r : NumRow G => some r.pValue) _ _
      (le_of_eq hlen.symm)
  rw [hL, hR]

/-- C2.  Gating of the numerical post-hoc tests by the omnibus p-value:
on a successful call, an omnibus p-value `≥ 0.05` (or a NaN one) leaves
the pairwise table empty with no test executed, while an omnibus p-value
`< 0.05` over `n` distinct groups yields exactly `C(n,2)` pairwise rows —
one per unordered pair of distinct groups, in enumeration order — whose
adjusted column is the FDR correction of the raw p-value column as a
single batch. -/
theorem C2_numerical_gating {G : Type} [DecidableEq G]
    (kw : List (List ℚ) → ℚ × ℚ) (mwu : List ℚ → List ℚ → ℚ)
    (df : List (G × Option ℚ)) (om : OmnibusNum) (pw : List (NumRowOut G))
    (hok : run_numerical_distributions kw mwu df = Except.ok (om, pw)) :
    (∀ q, om.pvalue = some q → 1/20 ≤ q → pw = []) ∧
    (∀ q, om.pvalue = some q → q < 1/20 →
      pw.length = (uniqueFirst (df.map Prod.fst)).length.choose 2 ∧
      pw.map (fun o => (o.row.g1, o.row.g2)) =
        combos2 (uniqueFirst (df.map Prod.fst)) ∧
      pw.map (fun o => o.pAdj) =
        get_fdr (pw.map (fun o => some o.row.pValue))) ∧
    (om.pvalue = none → pw = []) := by
  unfold run_numerical_distributions at hok
  by_cases hempty : ((uniqueFirst (df.map Prod.fst)).map
      (fun g => (df.filter (fun r => r.1 == g)).filterMap Prod.snd)).any
        (fun d => d.isEmpty)
  · rw [if_pos hempty] at hok
    simp only [Except.ok.injEq, Prod.mk.injEq] at hok
    obtain ⟨h1, h2⟩ := hok
    subst h1
    subst h2
    refine ⟨?_, ?_, fun _ => rfl⟩
    · intro q hq
      simp at hq
    · intro q hq
      simp at hq
  · rw [if_neg hempty] at hok
    by_cases hlt2 : (uniqueFirst (df.map Prod.fst)).length < 2
    · rw [if_pos hlt2] at hok
      simp at hok
    · rw [if_neg hlt2] at hok
      by_cases hsame : allSame ((uniqueFirst (df.map Prod.fst)).map
          (fun g => (df.filter (fun r => r.1 == g)).filterMap
            Prod.snd)).flatten
      · rw [if_pos hsame] at hok
        simp at hok
      · rw [if_neg hsame] at hok
        by_cases hsig : (kw ((uniqueFirst (df.map Prod.fst)).map
            (fun g => (df.filter (fun r => r.1 == g)).filterMap
              Prod.snd))).2 < 1/20
        · rw [if_pos hsig] at hok
          simp only [Except.ok.injEq, Prod.mk.injEq] at hok
          obtain ⟨h1, h2⟩ := hok
          subst h1
          subst h2
          refine ⟨?_, ?_, ?_⟩
          · intro q hq hge
            rw [Option.some_inj] at hq
            subst hq
            exact absurd hsig (not_lt.mpr hge)
          · intro q hq hlt
            have hlenadj : (get_fdr (((combos2 (uniqueFirst
                (df.map Prod.fst))).map (fun pr =>
                  let d1 := (df.filter (fun r => r.1 == pr.1)).filterMap
                    Prod.snd
                  let d2 := (df.filter (fun r => r.1 == pr.2)).filterMap
                    Prod.snd
                  NumRow.mk pr.1 pr.2 (seriesMedian d1) (seriesMedian d2)
                    (mwu d1 d2))).map (fun r => some r.pValue))).length =
                ((combos2 (uniqueFirst (df.map Prod.fst))).map (fun pr =>
                  let d1 := (df.filter (fun r => r.1 == pr.1)).filterMap
                    Prod.snd
                  let d2 := (df.filter (fun r => r.1 == pr.2)).filterMap
                    Prod.snd
                  NumRow.mk pr.1 pr.2 (seriesMedian d1) (seriesMedian d2)
                    (mwu d1 d2))).length := by
              rw [get_fdr_length, List.length_map]
            refine ⟨?_, ?_, ?_⟩
            · rw [List.length_zipWith, hlenadj, Nat.min_self,
                List.length_map, combos2_length]
            · rw [List.map_zipWith]
              rw [zipWith_left_proj
                (fun r : NumRow G => (r.g1, r.g2)) _ _ (le_of_eq hlenadj.symm)]
              rw [List.map_map]
              have hfun : ((fun r : NumRow G => (r.g1, r.g2)) ∘ fun pr =>
                  let d1 := (df.filter (fun r => r.1 == pr.1)).filterMap
                    Prod.snd
                  let d2 := (df.filter (fun r => r.1 == pr.2)).filterMap
                    Prod.snd
                  NumRow.mk pr.1 pr.2 (seriesMedian d1) (seriesMedian d2)
                    (mwu d1 d2)) = id := rfl
              rw [hfun, List.map_id]
            · exact numRows_adj_eq _
          · intro hq
            simp at hq
        · rw [if_neg hsig] at hok
          simp only [Except.ok.injEq, Prod.mk.injEq] at hok
          obtain ⟨h1, h2⟩ := hok
          subst h1
          subst h2
          refine ⟨fun _ _ _ => rfl, ?_, fun _ => rfl⟩
          intro q hq hlt
          rw [Option.some_inj] at hq
          subst hq
          exact absurd hlt hsig

/-- Counterexample to C9 as stated: on a dataset with two distinct groups
of which one loses all its values to `dropna` — so fewer than two
non-empty groups exist — the call is not an error: it returns a NaN
omnibus record and an empty pairwise table. -/
theorem C9_counterexample :
    run_numerical_distributions (G := ℕ) (fun _ => (0, 0)) (fun _ _ => 0)
        [(0, some 1), (1, none)] =
      Except.ok ({statistic := none, pvalue := none}, []) ∧
    ((uniqueFirst ([((0 : ℕ), some (1 : ℚ)), (1, none)].map Prod.fst)).map
      (fun g => (([((0 : ℕ), some (1 : ℚ)), (1, none)]).filter
        (fun r => r.1 == g)).filterMap Prod.snd)).countP
          (fun d => !d.isEmpty) = 1 := by
  constructor
  · rfl
  · rfl

/-- C9 (amended).  `run_numerical_distributions` errors — with the scipy
message asking for at least two groups — exactly when there are fewer than
two distinct groups and every group keeps at least one non-missing value;
a group emptied by dropping its missing values is not an error condition:
the call then returns a NaN omnibus result and an empty pairwise table. -/
theorem C9_two_group_requirement {G : Type} [DecidableEq G]
    (kw : List (List ℚ) → ℚ × ℚ) (mwu : List ℚ → List ℚ → ℚ)
    (df : List (G × Option ℚ)) :
    ((uniqueFirst (df.map Prod.fst)).length < 2 →
      ¬((uniqueFirst (df.map Prod.fst)).map
        (fun g => (df.filter (fun r => r.1 == g)).filterMap Prod.snd)).any
          (fun d => d.isEmpty) →
      run_numerical_distributions kw mwu df =
        Except.error "Need at least two groups in stats.kruskal()") ∧
    (((uniqueFirst (df.map Prod.fst)).map
        (fun g => (df.filter (fun r => r.1 == g)).filterMap Prod.snd)).any
          (fun d => d.isEmpty) →
      run_numerical_distributions kw mwu df =
        Except.ok ({statistic := none, pvalue := none}, [])) := by
  constructor
  · intro hlt hany
    unfold run_numerical_distributions
    rw [if_neg hany, if_pos hlt]
  · intro hany
    unfold run_numerical_distributions
    rw [if_pos hany]

theorem C9_two_group_requirement_witness :
    run_numerical_distributions (G := ℕ) (fun _ => (0, 0)) (fun _ _ => 0)
        [(0, some 1), (0, some 2)] =
      Except.error "Need at least two groups in stats.kruskal()" :=
  (C9_two_group_requirement (G := ℕ) (fun _ => (0, 0)) (fun _ _ => 0)
    [(0, some 1), (0, some 2)]).1 (by decide) (by decide)

theorem C5_one_vs_one_shape_witness :
    ((run_pairwise_categorical (G := ℕ) (F := ℕ) (fun _ _ _ _ => 1)
      (fun l => l.insertionSort catRowLe)
      [(0, 5), (1, 5)] "one_vs_one" 0).length = 1) ∧
    ((1 : ℕ) = (([((0 : ℕ), (5 : ℕ)), (1, 5)]).filter
      (fun r => r.1 == (0 : ℕ) && r.2 == (5 : ℕ))).length) := by
  have hrun : run_pairwise_categorical (G := ℕ) (F := ℕ)
      (fun _ _ _ _ => 1) (fun l => l.insertionSort catRowLe)
      [(0, 5), (1, 5)] "one_vs_one" 0 =
      [CatRowOut.mk 0 (CatRow.mk 0 (some 1) 5 1 1 1) (some 1)] := by
    norm_num [run_pairwise_categorical, oneVsOneRows, validFeatures,
      value_counts, uniqueFirst, uniqueAux, combos2, get_fdr,
      false_discovery_control, validIdx, suffixMins, clip01,
      List.insertionSort, List.orderedInsert, sndLe, catRowLe, cellLe,
      List.range_succ, List.filterMap_cons, List.lookup]
  have h := C5_one_vs_one_shape (G := ℕ) (F := ℕ) (fun _ _ _ _ => 1)
    (fun l => l.insertionSort catRowLe)
    (fun l => ⟨List.perm_insertionSort catRowLe l,
      List.sorted_insertionSort catRowLe l⟩)
    [(0, 5), (1, 5)] 0
  constructor
  · rw [h.1]
    decide
  · have h3 := h.2.2
      (CatRowOut.mk 0 (CatRow.mk 0 (some 1) 5 1 1 1) (some 1))
      (by rw [hrun]; exact List.mem_singleton.mpr rfl) 1 rfl
    exact h3.1

theorem C6_one_vs_rest_shape_witness :
    ((run_pairwise_categorical (G := ℕ) (F := ℕ) (fun _ _ _ _ => 1)
        (fun l => l.insertionSort catRowLe)
        [(0, 7), (1, 7)] "one_vs_rest" 0).map
      (fun o => if o.row.feature = 7 then o.row.count1 else 0)).sum =
      (([((0 : ℕ), (7 : ℕ)), (1, 7)]).filter
        (fun r => r.2 == (7 : ℕ))).length :=
  (C6_one_vs_rest_shape (G := ℕ) (F := ℕ) (fun _ _ _ _ => 1)
    (fun l => l.insertionSort catRowLe)
    (fun l => ⟨List.perm_insertionSort catRowLe l,
      List.sorted_insertionSort catRowLe l⟩)
    [(0, 7), (1, 7)] 0).2 7 (by decide)

/-- Counterexample to the stability conjunct of the original C3: a sort
function satisfying the full `sort_values(\x27P_adj\x27)` contract (the rows a
permutation of the input, ascending in the adjusted p-value) under which
tied rows leave their enumeration order.  On `[(0, 5), (1, 5), (1, 6)]`
with a constant Fisher kernel both result rows receive the same adjusted
p-value `1`, yet the returned table carries row labels `[1, 0]`: the row
enumerated second comes first. -/
theorem C3_counterexample :
    SortsByPAdj (G := ℕ) (F := ℕ)
      (fun l => l.reverse.insertionSort catRowLe) ∧
    (run_pairwise_categorical (G := ℕ) (F := ℕ) (fun _ _ _ _ => 1)
        (fun l => l.reverse.insertionSort catRowLe)
        [(0, 5), (1, 5), (1, 6)] "one_vs_one" 0).map
      (fun o => (o.idx, o.pAdj)) = [(1, some 1), (0, some 1)] := by
  constructor
  · intro l
    exact ⟨(List.perm_insertionSort catRowLe l.reverse).trans
      l.reverse_perm, List.sorted_insertionSort catRowLe l.reverse⟩
  · have hres : catResults (G := ℕ) (F := ℕ) (fun _ _ _ _ => 1)
        [(0, 5), (1, 5), (1, 6)] "one_vs_one" 0 =
        [CatRow.mk 0 (some 1) 5 1 1 1, CatRow.mk 0 (some 1) 6 0 1 1] := by
      decide
    have hadj : get_fdr [some (1 : ℚ), some 1] = [some 1, some 1] := by
      norm_num [get_fdr, false_discovery_control, validIdx, suffixMins,
        clip01, List.insertionSort, List.orderedInsert, sndLe,
        List.range_succ, List.filterMap_cons, List.lookup]
      decide
    rw [run_pairwise_categorical_eq, if_neg (by decide), hres,
      if_neg (by decide)]
    rw [show ([CatRow.mk (0 : ℕ) (some (1 : ℕ)) (5 : ℕ) 1 1 (1 : ℚ),
        CatRow.mk 0 (some 1) 6 0 1 1].map (fun r => some r.pValue)) =
      [some (1 : ℚ), some 1] from rfl, hadj]
    decide

theorem C3_sorted_by_adjusted_witness :
    (run_pairwise_categorical (G := ℕ) (F := ℕ) (fun _ _ _ _ => 1)
        (fun l => l.insertionSort catRowLe)
        [(0, 5), (1, 5), (1, 6)] "one_vs_one" 0).Sorted catRowLe ∧
    ((run_pairwise_categorical (G := ℕ) (F := ℕ) (fun _ _ _ _ => 1)
        (fun l => l.insertionSort catRowLe)
        [(0, 5), (1, 5), (1, 6)] "one_vs_one" 0).map CatRowOut.idx).Perm
      (List.range
        (run_pairwise_categorical (G := ℕ) (F := ℕ) (fun _ _ _ _ => 1)
          (fun l => l.insertionSort catRowLe)
          [(0, 5), (1, 5), (1, 6)] "one_vs_one" 0).length) :=
  C3_sorted_by_adjusted (fun _ _ _ _ => 1)
    (fun l => l.insertionSort catRowLe)
    (fun l => ⟨List.perm_insertionSort catRowLe l,
      List.sorted_insertionSort catRowLe l⟩)
    [(0, 5), (1, 5), (1, 6)] "one_vs_one" 0

theorem C2_numerical_gating_witness :
    ([NumRowOut.mk (NumRow.mk (0 : ℕ) 1 (some (3 / 2)) (some 5) 1)
        (some 1)].length =
      (uniqueFirst ([((0 : ℕ), some (1 : ℚ)), (0, some 2),
        (1, some 5)].map Prod.fst)).length.choose 2) ∧
    ([NumRowOut.mk (NumRow.mk (0 : ℕ) 1 (some (3 / 2)) (some 5) 1)
        (some 1)].map (fun o => (o.row.g1, o.row.g2)) =
      combos2 (uniqueFirst ([((0 : ℕ), some (1 : ℚ)), (0, some 2),
        (1, some 5)].map Prod.fst))) := by
  have hrun : run_numerical_distributions (G := ℕ) (fun _ => (0, 0))
      (fun _ _ => 1) [(0, some 1), (0, some 2), (1, some 5)] =
      Except.ok ({statistic := some 0, pvalue := some 0},
        [NumRowOut.mk (NumRow.mk 0 1 (some (3 / 2)) (some 5) 1)
          (some 1)]) := by
    unfold run_numerical_distributions
    rw [if_neg (by decide), if_neg (by decide), if_neg (by decide),
      if_pos (by norm_num)]
    rw [show combos2 (uniqueFirst (List.map Prod.fst
      [((0 : ℕ), some (1 : ℚ)), (0, some 2), (1, some 5)])) = [(0, 1)]
      from by decide]
    simp only [List.map_cons, List.map_nil]
    norm_num [seriesMedian, List.insertionSort, List.orderedInsert, qLe,
      get_fdr, false_discovery_control, validIdx, suffixMins, clip01,
      sndLe, List.range_succ, List.filterMap_cons, List.lookup]
  have h := (C2_numerical_gating (G := ℕ) (fun _ => (0, 0)) (fun _ _ => 1)
    [(0, some 1), (0, some 2), (1, some 5)] _ _ hrun).2.1 0 rfl
    (by norm_num)
  exact ⟨h.1, h.2.1⟩

end WzyAnalysis
